import Mathlib

/-!
Verification of `30-create-large-multi-bin.py`: a script that partitions a
total byte budget into randomly sized files, writes them concurrently from a
process pool, and aggregates progress events in a monitor thread.

The Python functions are shallowly embedded as Lean definitions:
* `planLoop` / `plannedTasks` embed the planning loop of
  `generate_random_bin_files_parallel` (lines 242-259); Python's
  `random.randint` is modelled by an oracle `draw` together with the
  `ValidDraw` bound (randint guarantees `lo ≤ result ≤ hi`) and an explicit
  error outcome for the empty-range `ValueError`.
* `genLoop` embeds the chunked write loop of `generate_single_file`
  (lines 34-78), with the two-tier random-byte source (`os.urandom` with the
  `random.randint` fallback) and the rate-limited progress reports modelled
  as oracles.
* `progress_speed` / `completed_speed` embed the two division-guarded rate
  computations (lines 58-64 and 80-84).
* `poolDrain` embeds the driver's `imap_unordered` consumption loop
  (lines 290-305): results arrive in completion order; the first raised
  task error aborts iteration and the `with` block terminates the pool.
* `monStep` / `monRun` embed the event handling of `progress_monitor`
  (lines 124-211).
-/

/-! ## WorkPlanner (lines 242-259) -/

def pad4 (n : Nat) : String :=
  if n < 10 then "000" ++ toString n
  else if n < 100 then "00" ++ toString n
  else if n < 1000 then "0" ++ toString n
  else toString n

def itemName (i : Nat) : String := "d" ++ pad4 i ++ ".bin"

/-- Outcome of the planning loop: a task list, the `ValueError` raised by
`random.randint` when its range is empty, or fuel exhaustion (used only to
make the embedding of the unbounded `while` loop total). -/
inductive PlanOutcome where
  | ok (tasks : List (String × Nat))
  | err
  | fuelOut
deriving DecidableEq

def consTask (t : String × Nat) : PlanOutcome → PlanOutcome
  | .ok ts => .ok (t :: ts)
  | .err => .err
  | .fuelOut => .fuelOut

/-- `random.randint lo hi` modelled as an oracle indexed by the loop counter;
the bound is the library guarantee `lo ≤ randint lo hi ≤ hi`. -/
def ValidDraw (draw : Nat → Nat → Nat → Nat) : Prop :=
  ∀ lo hi idx, lo ≤ hi → lo ≤ draw lo hi idx ∧ draw lo hi idx ≤ hi

/-- The `while bytes_written_total < total_size_bytes` planning loop:
`bwt` is `bytes_written_total`, `fc` is `file_count`. -/
def planLoop (draw : Nat → Nat → Nat → Nat) (total minS maxS : Nat) :
    Nat → Nat → Nat → PlanOutcome
  | 0, bwt, _ => if bwt < total then .fuelOut else .ok []
  | fuel + 1, bwt, fc =>
    if bwt < total then
      let remaining := total - bwt
      if remaining < minS then
        consTask (itemName fc, remaining)
          (planLoop draw total minS maxS fuel (bwt + remaining) (fc + 1))
      else
        let maxPossible := min maxS remaining
        if maxPossible < minS then .err
        else
          consTask (itemName fc, draw minS maxPossible fc)
            (planLoop draw total minS maxS fuel (bwt + draw minS maxPossible fc) (fc + 1))
    else .ok []

def plannedTasks (draw : Nat → Nat → Nat → Nat) (total minS maxS : Nat) : PlanOutcome :=
  planLoop draw total minS maxS total 0 0

/-- The file tasks actually handed to the worker pool: planning happens before
any file is opened, so an empty list means no file is ever created. -/
def dispatchedTasks (draw : Nat → Nat → Nat → Nat) (total minS maxS : Nat) :
    List (String × Nat) :=
  match plannedTasks draw total minS maxS with
  | .ok ts => ts
  | .err => []
  | .fuelOut => []

/-- All sizes lie in `[minS, maxS]` except possibly the last one, which may
instead be an undersized remainder. -/
def sizesOK (minS maxS : Nat) : List Nat → Prop
  | [] => True
  | [s] => (minS ≤ s ∧ s ≤ maxS) ∨ s < minS
  | s :: rest => (minS ≤ s ∧ s ≤ maxS) ∧ sizesOK minS maxS rest

theorem sizesOK_cons (minS maxS s : Nat) (l : List Nat)
    (h1 : minS ≤ s ∧ s ≤ maxS) (h2 : sizesOK minS maxS l) :
    sizesOK minS maxS (s :: l) := by
  cases l with
  | nil => exact Or.inl h1
  | cons a t => exact ⟨h1, h2⟩

theorem ceil_div_step (m s r : Nat) (hm : 1 ≤ m) (hs : m ≤ s) (hsr : s ≤ r) :
    (r - s + m - 1) / m + 1 ≤ (r + m - 1) / m := by
  have h1 : (r - s + m - 1) / m + 1 = (r - s + m - 1 + m) / m := by
    rw [Nat.add_div_right _ hm]
  rw [h1]
  exact Nat.div_le_div_right (by omega)

theorem ceil_div_pos (m r : Nat) (hm : 1 ≤ m) (hr : 1 ≤ r) :
    1 ≤ (r + m - 1) / m := by
  rw [Nat.le_div_iff_mul_le hm]
  omega

theorem ceil_div_le_self (m r : Nat) (hm : 1 ≤ m) : (r + m - 1) / m ≤ r := by
  have h1 : r ≤ r * m := Nat.le_mul_of_pos_right r hm
  have h2 : r + m - 1 < (r + 1) * m := by
    have h3 : (r + 1) * m = r * m + m := by ring
    omega
  have h4 : (r + m - 1) / m < r + 1 := by
    rw [Nat.div_lt_iff_lt_mul (by omega : 0 < m)]
    exact h2
  omega

/-- Master invariant of the planning loop: with a valid draw oracle, positive
`minS ≤ maxS`, and fuel at least `⌈(total - bwt) / minS⌉`, the loop succeeds;
the produced sizes close the gap to `total` exactly, respect the size bounds
except possibly at the final remainder item, and number at most
`⌈(total - bwt) / minS⌉`. -/
theorem planLoop_master (draw : Nat → Nat → Nat → Nat) (total minS maxS : Nat)
    (hd : ValidDraw draw) (hm : 1 ≤ minS) (hmm : minS ≤ maxS) :
    ∀ fuel bwt fc, bwt ≤ total → (total - bwt + minS - 1) / minS ≤ fuel →
      ∃ ts : List (String × Nat),
        planLoop draw total minS maxS fuel bwt fc = .ok ts ∧
        bwt + (ts.map Prod.snd).sum = total ∧
        sizesOK minS maxS (ts.map Prod.snd) ∧
        ts.length ≤ (total - bwt + minS - 1) / minS := by
  intro fuel
  induction fuel with
  | zero =>
    intro bwt fc hle hfuel
    have hbwt : bwt = total := by
      by_contra hne
      have h1 : bwt < total := lt_of_le_of_ne hle hne
      have h2 : 1 ≤ (total - bwt + minS - 1) / minS :=
        ceil_div_pos minS (total - bwt) hm (by omega)
      omega
    refine ⟨[], ?_, by simp [hbwt], trivial, by simp⟩
    simp [planLoop, hbwt]
  | succ n ih =>
    intro bwt fc hle hfuel
    by_cases hbw : bwt < total
    · by_cases hrem : total - bwt < minS
      · -- undersized final item absorbing the remainder
        obtain ⟨ts, hok, hsum, hsz, hlen⟩ :=
          ih (bwt + (total - bwt)) (fc + 1) (by omega)
            (by
              have : total - (bwt + (total - bwt)) = 0 := by omega
              rw [this]
              have : (0 + minS - 1) / minS = 0 := Nat.div_eq_of_lt (by omega)
              omega)
        have hts : ts = [] := by
          have h0 : (total - (bwt + (total - bwt)) + minS - 1) / minS = 0 := by
            have : total - (bwt + (total - bwt)) = 0 := by omega
            rw [this]
            exact Nat.div_eq_of_lt (by omega)
          rw [h0] at hlen
          exact List.length_eq_zero.mp (by omega)
        subst hts
        refine ⟨[(itemName fc, total - bwt)], ?_, by simp; omega, Or.inr hrem, ?_⟩
        · simp only [planLoop, if_pos hbw, if_pos hrem]
          rw [hok]
          rfl
        · simpa using ceil_div_pos minS (total - bwt) hm (by omega)
      · -- regular draw in [minS, min maxS remaining]
        have hmin : minS ≤ min maxS (total - bwt) := le_min hmm (by omega)
        obtain ⟨hlo, hhi⟩ := hd minS (min maxS (total - bwt)) fc hmin
        set size := draw minS (min maxS (total - bwt)) fc with hsize
        have hsr : size ≤ total - bwt := le_trans hhi (min_le_right _ _)
        obtain ⟨ts, hok, hsum, hsz, hlen⟩ :=
          ih (bwt + size) (fc + 1) (by omega)
            (by
              have hstep : (total - (bwt + size) + minS - 1) / minS + 1 ≤
                  (total - bwt + minS - 1) / minS := by
                have h1 : total - (bwt + size) = total - bwt - size := by omega
                rw [h1]
                exact ceil_div_step minS size (total - bwt) hm hlo hsr
              omega)
        refine ⟨(itemName fc, size) :: ts, ?_, ?_, ?_, ?_⟩
        · simp only [planLoop, if_pos hbw, if_neg hrem,
            if_neg (not_lt.mpr hmin)]
          rw [← hsize, hok]
          rfl
        · simp only [List.map_cons, List.sum_cons]
          omega
        · exact sizesOK_cons _ _ _ _ ⟨hlo, le_trans hhi (min_le_left _ _)⟩ hsz
        · have hstep : (total - (bwt + size) + minS - 1) / minS + 1 ≤
              (total - bwt + minS - 1) / minS := by
            have h1 : total - (bwt + size) = total - bwt - size := by omega
            rw [h1]
            exact ceil_div_step minS size (total - bwt) hm hlo hsr
          simp only [List.length_cons]
          omega
    · have hbwt : bwt = total := by omega
      refine ⟨[], ?_, by simp [hbwt], trivial, by simp⟩
      simp [planLoop, hbwt]

theorem sum_dropLast_getLast (l : List Nat) (s : Nat) (h : l.getLast? = some s) :
    l.dropLast.sum + s = l.sum := by
  induction l with
  | nil => simp at h
  | cons a t ih =>
    cases t with
    | nil =>
      simp only [List.getLast?_singleton, Option.some.injEq] at h
      simp [h]
    | cons b u =>
      rw [List.getLast?_cons_cons] at h
      have h2 := ih h
      simp only [List.dropLast_cons₂, List.sum_cons] at h2 ⊢
      omega

/-- Claim C2: for every valid input (`total_bytes > 0`,
`0 < min_item_size ≤ max_item_size`), the sizes of all work items produced by
the planner sum exactly to `total_bytes`. -/
theorem claim_C2_plan_sum (draw : Nat → Nat → Nat → Nat) (total minS maxS : Nat)
    (hd : ValidDraw draw) (ht : 0 < total) (hm : 0 < minS) (hmm : minS ≤ maxS) :
    ∃ ts, plannedTasks draw total minS maxS = .ok ts ∧
      (ts.map Prod.snd).sum = total := by
  obtain ⟨ts, hok, hsum, _, _⟩ :=
    planLoop_master draw total minS maxS hd hm hmm total 0 0 (Nat.zero_le _)
      (by simpa using ceil_div_le_self minS total hm)
  exact ⟨ts, hok, by omega⟩

theorem claim_C2_plan_sum_witness :
    ∃ ts, plannedTasks (fun lo _ _ => lo) 5 2 3 = .ok ts ∧
      (ts.map Prod.snd).sum = 5 :=
  claim_C2_plan_sum (fun lo _ _ => lo) 5 2 3
    (fun lo _ idx h => ⟨Nat.le_refl lo, h⟩) (by decide) (by decide) (by decide)

/-- Claim C7: for every valid input, every planned item size lies within
`[min_item_size, max_item_size]`, except possibly the single final item,
whose size is the remaining byte count (the total minus all earlier sizes)
when that remainder is smaller than `min_item_size`. -/
theorem claim_C7_plan_size_bounds (draw : Nat → Nat → Nat → Nat)
    (total minS maxS : Nat)
    (hd : ValidDraw draw) (ht : 0 < total) (hm : 0 < minS) (hmm : minS ≤ maxS) :
    ∃ ts, plannedTasks draw total minS maxS = .ok ts ∧
      sizesOK minS maxS (ts.map Prod.snd) ∧
      ∀ s, (ts.map Prod.snd).getLast? = some s → s < minS →
        ((ts.map Prod.snd).dropLast).sum + s = total := by
  obtain ⟨ts, hok, hsum, hsz, _⟩ :=
    planLoop_master draw total minS maxS hd hm hmm total 0 0 (Nat.zero_le _)
      (by simpa using ceil_div_le_self minS total hm)
  refine ⟨ts, hok, hsz, fun s hl _ => ?_⟩
  have h2 := sum_dropLast_getLast _ s hl
  omega

theorem claim_C7_plan_size_bounds_witness :
    ∃ ts, plannedTasks (fun lo _ _ => lo) 5 2 3 = .ok ts ∧
      sizesOK 2 3 (ts.map Prod.snd) ∧
      ∀ s, (ts.map Prod.snd).getLast? = some s → s < 2 →
        ((ts.map Prod.snd).dropLast).sum + s = 5 :=
  claim_C7_plan_size_bounds (fun lo _ _ => lo) 5 2 3
    (fun lo _ idx h => ⟨Nat.le_refl lo, h⟩) (by decide) (by decide) (by decide)

/-- Claim C8: for every valid input, the planning loop terminates within
`⌈total_bytes / min_item_size⌉` iterations — running it with exactly that
much fuel already succeeds — and it produces at most that many work items. -/
theorem claim_C8_plan_termination (draw : Nat → Nat → Nat → Nat)
    (total minS maxS : Nat)
    (hd : ValidDraw draw) (hm : 0 < minS) (hmm : minS ≤ maxS) :
    ∃ ts, planLoop draw total minS maxS ((total + minS - 1) / minS) 0 0 = .ok ts ∧
      ts.length ≤ (total + minS - 1) / minS := by
  obtain ⟨ts, hok, _, _, hlen⟩ :=
    planLoop_master draw total minS maxS hd hm hmm ((total + minS - 1) / minS)
      0 0 (Nat.zero_le _) (by simp)
  exact ⟨ts, hok, by simpa using hlen⟩

theorem claim_C8_plan_termination_witness :
    ∃ ts, planLoop (fun lo _ _ => lo) 5 2 3 ((5 + 2 - 1) / 2) 0 0 = .ok ts ∧
      ts.length ≤ (5 + 2 - 1) / 2 :=
  claim_C8_plan_termination (fun lo _ _ => lo) 5 2 3
    (fun lo _ idx h => ⟨Nat.le_refl lo, h⟩) (by decide) (by decide)

/-- Claim C9 (amended): the script performs no configuration validation, so
an invalid configuration is not rejected up front; when
`min_item_size > max_item_size` with `total_bytes ≥ min_item_size`, the
planning loop hits `random.randint` with an empty range, which raises before
any task is dispatched, so no file is touched. -/
theorem claim_C9_empty_range_aborts_planning (draw : Nat → Nat → Nat → Nat)
    (total minS maxS : Nat) (h : maxS < minS) (h2 : minS ≤ total) :
    plannedTasks draw total minS maxS = .err ∧
    dispatchedTasks draw total minS maxS = [] := by
  rcases total with _ | f
  · omega
  · have c2 : ¬ (f + 1 < minS) := by omega
    have c3 : min maxS (f + 1) = maxS := Nat.min_eq_left (by omega)
    have hp : plannedTasks draw (f + 1) minS maxS = .err := by
      simp [plannedTasks, planLoop, c2, c3, h]
    exact ⟨hp, by simp [dispatchedTasks, hp]⟩

theorem claim_C9_empty_range_aborts_planning_witness :
    plannedTasks (fun lo _ _ => lo) 10 7 3 = .err ∧
    dispatchedTasks (fun lo _ _ => lo) 10 7 3 = [] :=
  claim_C9_empty_range_aborts_planning (fun lo _ _ => lo) 10 7 3
    (by decide) (by decide)

/-- Claim C9 counterexample: `min_item_size = 0` is an invalid configuration
(non-positive minimum), yet the program reports no error: planning succeeds
and two files are dispatched for creation, contradicting the claim that an
invalid configuration is rejected before any work starts with no files
created. -/
theorem claim_C9_counterexample :
    plannedTasks (fun _ hi _ => hi) 10 0 5 =
      .ok [(itemName 0, 5), (itemName 1, 5)] ∧
    dispatchedTasks (fun _ hi _ => hi) 10 0 5 ≠ [] := by
  exact ⟨by decide, by decide⟩

/-! ## FileWriterTask: `generate_single_file` (lines 34-96) -/

/-- The fixed 512 KiB write buffer (`buffer_size = 512 * 1024`). -/
def buffer_size : Nat := 512 * 1024

/-- The two-tier random-byte source: `os.urandom` (`primary`, which may
fail) with the `random.randint`-based fallback (`fallback`); both are asked
for `n` bytes on the call with loop index `idx`. -/
def byteBlock (primary : Nat → Nat → Option (List Nat))
    (fallback : Nat → Nat → List Nat) (idx n : Nat) : List Nat :=
  match primary idx n with
  | some b => b
  | none => fallback idx n

/-- Result of the write loop: the bytes written to the file, the
`bytes_written` payloads of the emitted progress events, and the final value
of `bytes_written` when the loop exits. -/
structure GenResult where
  content : List Nat
  progressVals : List Nat
  finalBytes : Nat

/-- The `while bytes_written < file_size` write loop of
`generate_single_file`: each pass writes `min(buffer_size, remaining)` random
bytes, advances `bytes_written`, and — when the 5-second rate limiter fires,
modelled by the oracle `report` on the loop index — records a progress event
carrying the updated `bytes_written`. -/
def genLoop (primary : Nat → Nat → Option (List Nat))
    (fallback : Nat → Nat → List Nat) (report : Nat → Bool)
    (file_size bytes_written idx : Nat) : GenResult :=
  if h : bytes_written < file_size then
    let current := min buffer_size (file_size - bytes_written)
    let block := byteBlock primary fallback idx current
    let bw := bytes_written + current
    let rest := genLoop primary fallback report file_size bw (idx + 1)
    { content := block ++ rest.content,
      progressVals := (if report idx then [bw] else []) ++ rest.progressVals,
      finalBytes := rest.finalBytes }
  else
    { content := [], progressVals := [], finalBytes := bytes_written }
termination_by file_size - bytes_written
decreasing_by
  have hpos : 0 < min buffer_size (file_size - bytes_written) := by
    have : 0 < buffer_size := by decide
    omega
  omega

theorem byteBlock_length (primary : Nat → Nat → Option (List Nat))
    (fallback : Nat → Nat → List Nat)
    (hp : ∀ i n b, primary i n = some b → b.length = n)
    (hf : ∀ i n, (fallback i n).length = n) (idx n : Nat) :
    (byteBlock primary fallback idx n).length = n := by
  unfold byteBlock
  cases hpi : primary idx n with
  | none => exact hf idx n
  | some b => exact hp idx n b hpi

theorem genLoop_content_length (primary : Nat → Nat → Option (List Nat))
    (fallback : Nat → Nat → List Nat) (report : Nat → Bool)
    (hp : ∀ i n b, primary i n = some b → b.length = n)
    (hf : ∀ i n, (fallback i n).length = n) :
    ∀ k fs bw idx, fs - bw ≤ k →
      (genLoop primary fallback report fs bw idx).content.length = fs - bw := by
  intro k
  induction k with
  | zero =>
    intro fs bw idx hk
    rw [genLoop, dif_neg (by omega)]
    simp only [List.length_nil]
    omega
  | succ n ih =>
    intro fs bw idx hk
    by_cases h : bw < fs
    · rw [genLoop, dif_pos h]
      have hpos : 0 < min buffer_size (fs - bw) := by
        have : 0 < buffer_size := by decide
        omega
      have hle : min buffer_size (fs - bw) ≤ fs - bw := min_le_right _ _
      have ihc := ih fs (bw + min buffer_size (fs - bw)) (idx + 1) (by omega)
      simp only [List.length_append, ihc,
        byteBlock_length primary fallback hp hf]
      omega
    · rw [genLoop, dif_neg h]
      simp only [List.length_nil]
      omega

theorem genLoop_progress (primary : Nat → Nat → Option (List Nat))
    (fallback : Nat → Nat → List Nat) (report : Nat → Bool) :
    ∀ k fs bw idx, fs - bw ≤ k → bw ≤ fs →
      (genLoop primary fallback report fs bw idx).finalBytes = fs ∧
      List.Chain' (· ≤ ·)
        ((genLoop primary fallback report fs bw idx).progressVals) ∧
      ∀ v ∈ (genLoop primary fallback report fs bw idx).progressVals,
        bw < v ∧ v ≤ fs := by
  intro k
  induction k with
  | zero =>
    intro fs bw idx hk hbw
    rw [genLoop, dif_neg (by omega)]
    exact ⟨by simp only []; omega, List.chain'_nil, by simp⟩
  | succ n ih =>
    intro fs bw idx hk hbw
    by_cases h : bw < fs
    · rw [genLoop, dif_pos h]
      have hpos : 0 < min buffer_size (fs - bw) := by
        have : 0 < buffer_size := by decide
        omega
      have hle : min buffer_size (fs - bw) ≤ fs - bw := min_le_right _ _
      obtain ⟨ihf, ihc, ihm⟩ :=
        ih fs (bw + min buffer_size (fs - bw)) (idx + 1) (by omega) (by omega)
      refine ⟨ihf, ?_, ?_⟩
      · by_cases hr : report idx
        · simp only [hr, if_pos, List.singleton_append]
          rw [List.chain'_cons']
          refine ⟨fun b hb => ?_, ihc⟩
          have hmem : b ∈ (genLoop primary fallback report fs
              (bw + min buffer_size (fs - bw)) (idx + 1)).progressVals :=
            List.mem_of_mem_head? hb
          exact le_of_lt (ihm b hmem).1
        · simpa [hr] using ihc
      · intro v hv
        by_cases hr : report idx
        · simp only [hr, if_pos, List.singleton_append, List.mem_cons] at hv
          rcases hv with hv | hv
          · omega
          · have := ihm v hv
            omega
        · simp only [hr, if_neg, List.nil_append] at hv
          have := ihm v hv
          omega
    · rw [genLoop, dif_neg h]
      exact ⟨by simp only []; omega, List.chain'_nil, by simp⟩

/-- Claim C5: whenever a `FileWriterTask` runs to successful completion, the
number of bytes written to the produced file equals the item's `target_size`
exactly (given the byte-source guarantee that a requested block has the
requested length). -/
theorem claim_C5_byte_count_fidelity (primary : Nat → Nat → Option (List Nat))
    (fallback : Nat → Nat → List Nat) (report : Nat → Bool) (target_size : Nat)
    (hp : ∀ i n b, primary i n = some b → b.length = n)
    (hf : ∀ i n, (fallback i n).length = n) :
    (genLoop primary fallback report target_size 0 0).content.length =
      target_size := by
  have h := genLoop_content_length primary fallback report hp hf
    target_size target_size 0 0 (by omega)
  simpa using h

theorem claim_C5_byte_count_fidelity_witness :
    (genLoop (fun _ n => some (List.replicate n 7)) (fun _ n => List.replicate n 0)
      (fun _ => false) 5 0 0).content.length = 5 :=
  claim_C5_byte_count_fidelity (fun _ n => some (List.replicate n 7))
    (fun _ n => List.replicate n 0) (fun _ => false) 5
    (fun i n b hb => by
      injection hb with hb
      rw [← hb, List.length_replicate])
    (fun i n => List.length_replicate n 0)

/-- Claim C6: within one task's event stream, the `bytes_written` values of
successive Progress events are non-decreasing, each is at most the final
`bytes_written`, and on completion the final `bytes_written` equals
`target_size`. -/
theorem claim_C6_monotonic_progress (primary : Nat → Nat → Option (List Nat))
    (fallback : Nat → Nat → List Nat) (report : Nat → Bool) (target_size : Nat) :
    List.Chain' (· ≤ ·)
      ((genLoop primary fallback report target_size 0 0).progressVals) ∧
    (genLoop primary fallback report target_size 0 0).finalBytes = target_size ∧
    ∀ v ∈ (genLoop primary fallback report target_size 0 0).progressVals,
      v ≤ (genLoop primary fallback report target_size 0 0).finalBytes := by
  obtain ⟨hf, hc, hm⟩ := genLoop_progress primary fallback report
    target_size target_size 0 0 (by omega) (by omega)
  exact ⟨hc, hf, fun v hv => by rw [hf]; exact (hm v hv).2⟩

/-! ## Rate computations of `generate_single_file` (lines 58-64, 80-84) -/

/-- Progress-event rate (lines 61-64): `if elapsed > 0: speed =
bytes_written / (1024*1024) / elapsed; else: speed = 0`. -/
def progress_speed (bytes_written elapsed : ℚ) : ℚ :=
  if 0 < elapsed then bytes_written / (1024 * 1024) / elapsed else 0

/-- Completed-event rate (lines 82-84): `speed = 9999; if elapsed:
speed = file_size / (1024*1024) / elapsed`, i.e. the `9999` sentinel
survives exactly when `elapsed == 0`. -/
def completed_speed (file_size elapsed : ℚ) : ℚ :=
  if elapsed ≠ 0 then file_size / (1024 * 1024) / elapsed else 9999

/-- Claim C10: at zero measured elapsed time neither rate computation
divides (each takes its guarded branch), and the substituted value differs
by event type — a Progress event reports rate `0` while a Completed event
reports the sentinel `9999`; for nonzero elapsed both report the true
quotient. -/
theorem claim_C10_zero_elapsed_rates (bytes_written file_size : ℚ) :
    progress_speed bytes_written 0 = 0 ∧
    completed_speed file_size 0 = 9999 ∧
    (∀ elapsed : ℚ, 0 < elapsed →
      progress_speed bytes_written elapsed =
        bytes_written / (1024 * 1024) / elapsed ∧
      completed_speed file_size elapsed =
        file_size / (1024 * 1024) / elapsed) := by
  refine ⟨by simp [progress_speed], by simp [completed_speed], ?_⟩
  intro elapsed he
  constructor
  · simp [progress_speed, he]
  · simp [completed_speed, ne_of_gt he]

/-! ## WorkerPool driver (lines 290-305)

`pool.imap_unordered(worker_func, file_tasks, chunksize=1)` yields task
results in completion order.  A failed task re-raises its exception when the
driver retrieves its result; leaving the `for` loop aborts the
`with multiprocessing.Pool(...)` block, whose exit handler calls
`terminate()`, killing in-flight workers and dropping undispatched items.
The completion-order arrival of task results is the model's input list. -/

inductive TaskResult where
  | ok (name : String) (size : Nat)
  | raisedErr (name : String) (size : Nat)
deriving DecidableEq

def TaskResult.item : TaskResult → String × Nat
  | .ok n s => (n, s)
  | .raisedErr n s => (n, s)

structure PoolRun where
  results : List (String × Nat)
  raised : Bool
  terminated : List (String × Nat)
deriving DecidableEq

/-- The driver's result loop: append each yielded result; at the first
result whose task raised, iteration raises and all later tasks are
terminated by the pool's context-manager exit. -/
def poolDrain : List TaskResult → PoolRun
  | [] => ⟨[], false, []⟩
  | .ok n s :: rest =>
      let r := poolDrain rest
      ⟨(n, s) :: r.results, r.raised, r.terminated⟩
  | .raisedErr _ _ :: rest => ⟨[], true, rest.map TaskResult.item⟩

/-- `generate_random_bin_files_parallel` catches the pool exception, prints
the traceback, and still returns `file_count`: the caller receives no
per-item failure set. -/
structure GenRun where
  results : List (String × Nat)
  errorPrinted : Bool
  returnValue : Nat

def generate_run (tasks : List (String × Nat)) (arrival : List TaskResult) :
    GenRun :=
  ⟨(poolDrain arrival).results, (poolDrain arrival).raised, tasks.length⟩

/-- Claim C1 counterexample: one item fails (its error surfaces first, e.g.
an unwritable path failing at `open`) while a sibling item is still in
flight; the claim requires the sibling to reach Completed, but the pool's
termination aborts it: it is absent from the collected results and listed
among the terminated items. -/
theorem claim_C1_counterexample :
    ("d0001.bin", 5) ∉
      (poolDrain [TaskResult.raisedErr "d0000.bin" 5,
        TaskResult.ok "d0001.bin" 5]).results ∧
    ("d0001.bin", 5) ∈
      (poolDrain [TaskResult.raisedErr "d0000.bin" 5,
        TaskResult.ok "d0001.bin" 5]).terminated := by
  exact ⟨by decide, by decide⟩

/-- Claim C1 (amended): when a task's write fails, the driver keeps exactly
the results that arrived before the failure; at the failure the iteration
raises (`raised = true`) and every later task is aborted by pool
termination rather than reaching Completed.  The enclosing function catches
the exception and still returns the planned file count, reporting no
per-item failure set to its caller. -/
theorem claim_C1_failure_aborts_batch (pre post : List TaskResult)
    (name : String) (size : Nat) (tasks : List (String × Nat))
    (hpre : ∀ r ∈ pre, ∃ n s, r = TaskResult.ok n s) :
    (poolDrain (pre ++ TaskResult.raisedErr name size :: post)).results =
      pre.map TaskResult.item ∧
    (poolDrain (pre ++ TaskResult.raisedErr name size :: post)).raised = true ∧
    (poolDrain (pre ++ TaskResult.raisedErr name size :: post)).terminated =
      post.map TaskResult.item ∧
    (generate_run tasks (pre ++ TaskResult.raisedErr name size :: post)).returnValue =
      tasks.length := by
  induction pre with
  | nil => exact ⟨rfl, rfl, rfl, rfl⟩
  | cons r pre ih =>
    obtain ⟨n, s, hr⟩ := hpre r (List.mem_cons_self r pre)
    subst hr
    obtain ⟨h1, h2, h3, _⟩ := ih (fun r hr => hpre r (List.mem_cons_of_mem _ hr))
    have hstep : poolDrain ((TaskResult.ok n s :: pre) ++
        TaskResult.raisedErr name size :: post) =
        ⟨(n, s) :: (poolDrain (pre ++ TaskResult.raisedErr name size :: post)).results,
          (poolDrain (pre ++ TaskResult.raisedErr name size :: post)).raised,
          (poolDrain (pre ++ TaskResult.raisedErr name size :: post)).terminated⟩ := rfl
    rw [hstep]
    exact ⟨by simp [h1, TaskResult.item], h2, h3, rfl⟩

theorem claim_C1_failure_aborts_batch_witness :
    (poolDrain ([TaskResult.ok "d0000.bin" 2] ++
      TaskResult.raisedErr "d0001.bin" 3 :: [TaskResult.ok "d0002.bin" 4])).results =
      [TaskResult.ok "d0000.bin" 2].map TaskResult.item ∧
    (poolDrain ([TaskResult.ok "d0000.bin" 2] ++
      TaskResult.raisedErr "d0001.bin" 3 :: [TaskResult.ok "d0002.bin" 4])).raised = true ∧
    (poolDrain ([TaskResult.ok "d0000.bin" 2] ++
      TaskResult.raisedErr "d0001.bin" 3 :: [TaskResult.ok "d0002.bin" 4])).terminated =
      [TaskResult.ok "d0002.bin" 4].map TaskResult.item ∧
    (generate_run [("d0000.bin", 2), ("d0001.bin", 3), ("d0002.bin", 4)]
      ([TaskResult.ok "d0000.bin" 2] ++
        TaskResult.raisedErr "d0001.bin" 3 :: [TaskResult.ok "d0002.bin" 4])).returnValue = 3 :=
  claim_C1_failure_aborts_batch [TaskResult.ok "d0000.bin" 2]
    [TaskResult.ok "d0002.bin" 4] "d0001.bin" 3
    [("d0000.bin", 2), ("d0001.bin", 3), ("d0002.bin", 4)]
    (fun r hr => by
      rw [List.mem_singleton] at hr
      exact ⟨"d0000.bin", 2, hr⟩)

/-! ## ProgressAggregator: `progress_monitor` (lines 113-219)

Events mirror the dictionaries put on `progress_queue`: every event carries
`pid` and `filename`; `file_size` is present on `started` and `progress`
events and absent (`none`, matching `info.get("file_size", ...)` defaults)
on `completed` and `error` events; `bytes_written` is carried by `progress`
events. -/

inductive EvStatus where
  | started
  | progress
  | completed
  | error
deriving DecidableEq

structure Event where
  pid : Nat
  filename : String
  status : EvStatus
  file_size : Option Nat
  bytes_written : Nat
deriving DecidableEq

/-- The fields of a `process_info[pid]` entry that the monitor reads. -/
structure PInfo where
  filename : String
  file_size : Nat
  bytes_written : Nat
deriving DecidableEq

structure MonState where
  process_info : Nat → Option PInfo
  completed_files : Nat
  completed_size : Nat

/-- Entry created by a `started` event (lines 135-142):
`file_size = info.get("file_size", 0)`, `bytes_written = 0`. -/
def startedEntry (e : Event) : PInfo :=
  ⟨e.filename, e.file_size.getD 0, 0⟩

/-- Entry after a `progress` event (lines 144-167): `file_size =
info.get("file_size", process_info.get(pid, {}).get("file_size", 0))`; a
missing entry is first created from the event, an existing entry keeps its
filename and is updated in place. -/
def progressEntry (old : Option PInfo) (e : Event) : PInfo :=
  match old with
  | some p => ⟨p.filename, e.file_size.getD p.file_size, e.bytes_written⟩
  | none => ⟨e.filename, e.file_size.getD 0, e.bytes_written⟩

/-- One iteration of the monitor's event handling (lines 131-207).  On
`completed`, only a pid already present in `process_info` bumps
`completed_files` and adds the stored `file_size` to `completed_size`
(lines 184-186); an `error` event only prints (lines 206-207). -/
def monStep (s : MonState) (e : Event) : MonState :=
  match e.status with
  | .started =>
      { s with process_info :=
          Function.update s.process_info e.pid (some (startedEntry e)) }
  | .progress =>
      let entry := progressEntry (s.process_info e.pid) e
      { s with process_info := Function.update s.process_info e.pid (some entry) }
  | .completed =>
      match s.process_info e.pid with
      | some p =>
          { s with completed_files := s.completed_files + 1,
                   completed_size := s.completed_size + p.file_size }
      | none => s
  | .error => s

def monRun (s : MonState) (es : List Event) : MonState := es.foldl monStep s

def monInit : MonState := ⟨fun _ => none, 0, 0⟩

/-- The monitor's draining loop (`while completed_files < total_files`,
line 124) exits precisely if some prefix of the event sequence drives
`completed_files` up to `total_files`. -/
def monitorStops (total_files : Nat) (es : List Event) : Prop :=
  ∃ n, total_files ≤ (monRun monInit (es.take n)).completed_files

/-! Per-pid decomposition of the monitor state. -/

/-- The `process_info` entry for `e.pid` after handling `e`. -/
def entryStep (entry : Option PInfo) (e : Event) : Option PInfo :=
  match e.status with
  | .started => some (startedEntry e)
  | .progress => some (progressEntry entry e)
  | .completed => entry
  | .error => entry

/-- The (files, bytes) tally increment produced by handling `e` when its
pid's entry is `entry`. -/
def tallyDelta (entry : Option PInfo) (e : Event) : Nat × Nat :=
  match e.status, entry with
  | .completed, some p => (1, p.file_size)
  | _, _ => (0, 0)

/-- Total tally contributed by a single pid's event subsequence. -/
def pidTally (entry : Option PInfo) : List Event → Nat × Nat
  | [] => (0, 0)
  | e :: es =>
      ((tallyDelta entry e).1 + (pidTally (entryStep entry e) es).1,
       (tallyDelta entry e).2 + (pidTally (entryStep entry e) es).2)

theorem monStep_process_info (s : MonState) (e : Event) (p : Nat) :
    (monStep s e).process_info p =
      if p = e.pid then entryStep (s.process_info e.pid) e
      else s.process_info p := by
  cases e with
  | mk pid fn st fs bw =>
    cases st <;>
      simp only [monStep, entryStep, Function.update_apply] <;>
      try rfl
    · cases hpe : s.process_info pid <;>
        simp only [hpe] <;> by_cases hp : p = pid <;> simp [hp, hpe]
    · by_cases hp : p = pid <;> simp [hp]

theorem monStep_tally (s : MonState) (e : Event) :
    (monStep s e).completed_files =
      s.completed_files + (tallyDelta (s.process_info e.pid) e).1 ∧
    (monStep s e).completed_size =
      s.completed_size + (tallyDelta (s.process_info e.pid) e).2 := by
  cases e with
  | mk pid fn st fs bw =>
    cases st <;> simp only [monStep, tallyDelta]
    · exact ⟨rfl, rfl⟩
    · exact ⟨rfl, rfl⟩
    · cases hpe : s.process_info pid <;> simp [hpe]
    · cases hpe : s.process_info pid <;> simp [hpe]

theorem sum_map_update_one (l : List Nat) (hnd : l.Nodup) (q : Nat) (hq : q ∈ l)
    (f g : Nat → Nat) (d : Nat)
    (hne : ∀ p ∈ l, p ≠ q → f p = g p) (heq : f q = d + g q) :
    (l.map f).sum = d + (l.map g).sum := by
  induction l with
  | nil => cases hq
  | cons a t ih =>
    rcases List.mem_cons.mp hq with h | h
    · subst h
      have ht : ∀ p ∈ t, f p = g p := by
        intro p hp
        have hpa : p ≠ q := by
          intro he
          subst he
          exact (List.nodup_cons.mp hnd).1 hp
        exact hne p (List.mem_cons_of_mem _ hp) hpa
      rw [List.map_cons, List.map_cons, List.sum_cons, List.sum_cons, heq,
        List.map_congr_left ht]
      omega
    · have ha : a ≠ q := by
        intro he
        subst he
        exact (List.nodup_cons.mp hnd).1 h
      have hfa : f a = g a := hne a (List.mem_cons_self _ _) ha
      have hrec := ih (List.nodup_cons.mp hnd).2 h
        (fun p hp hpq => hne p (List.mem_cons_of_mem _ hp) hpq)
      rw [List.map_cons, List.map_cons, List.sum_cons, List.sum_cons, hfa, hrec]
      omega

theorem filter_pid_cons_ne (e : Event) (es : List Event) (p : Nat)
    (hp : p ≠ e.pid) :
    (e :: es).filter (fun x => x.pid = p) = es.filter (fun x => x.pid = p) := by
  rw [List.filter_cons]
  simp [Ne.symm hp]

theorem filter_pid_cons_eq (e : Event) (es : List Event) :
    (e :: es).filter (fun x => x.pid = e.pid) =
      e :: es.filter (fun x => x.pid = e.pid) := by
  rw [List.filter_cons]
  simp

/-- The monitor's run on an event sequence splits into independent per-pid
tallies over the per-pid subsequences. -/
theorem monRun_decomp (pids : List Nat) (hnd : pids.Nodup) :
    ∀ es s, (∀ e ∈ es, e.pid ∈ pids) →
      (monRun s es).completed_files = s.completed_files +
        (pids.map (fun p =>
          (pidTally (s.process_info p) (es.filter (fun e => e.pid = p))).1)).sum ∧
      (monRun s es).completed_size = s.completed_size +
        (pids.map (fun p =>
          (pidTally (s.process_info p) (es.filter (fun e => e.pid = p))).2)).sum := by
  intro es
  induction es with
  | nil =>
    intro s _
    simp [monRun, pidTally]
  | cons e es ih =>
    intro s hcov
    have he : e.pid ∈ pids := hcov e (List.mem_cons_self _ _)
    have hmr : monRun s (e :: es) = monRun (monStep s e) es := rfl
    obtain ⟨ih1, ih2⟩ := ih (monStep s e)
      (fun x hx => hcov x (List.mem_cons_of_mem _ hx))
    obtain ⟨ht1, ht2⟩ := monStep_tally s e
    have hne1 : ∀ p ∈ pids, p ≠ e.pid →
        (pidTally (s.process_info p) ((e :: es).filter (fun x => x.pid = p))).1 =
        (pidTally ((monStep s e).process_info p) (es.filter (fun x => x.pid = p))).1 := by
      intro p _ hp
      rw [filter_pid_cons_ne e es p hp, monStep_process_info, if_neg hp]
    have hne2 : ∀ p ∈ pids, p ≠ e.pid →
        (pidTally (s.process_info p) ((e :: es).filter (fun x => x.pid = p))).2 =
        (pidTally ((monStep s e).process_info p) (es.filter (fun x => x.pid = p))).2 := by
      intro p _ hp
      rw [filter_pid_cons_ne e es p hp, monStep_process_info, if_neg hp]
    have hstep : (monStep s e).process_info e.pid =
        entryStep (s.process_info e.pid) e := by
      rw [monStep_process_info, if_pos rfl]
    have heq1 :
        (pidTally (s.process_info e.pid) ((e :: es).filter (fun x => x.pid = e.pid))).1 =
        (tallyDelta (s.process_info e.pid) e).1 +
        (pidTally ((monStep s e).process_info e.pid)
          (es.filter (fun x => x.pid = e.pid))).1 := by
      rw [filter_pid_cons_eq, hstep]
      rfl
    have heq2 :
        (pidTally (s.process_info e.pid) ((e :: es).filter (fun x => x.pid = e.pid))).2 =
        (tallyDelta (s.process_info e.pid) e).2 +
        (pidTally ((monStep s e).process_info e.pid)
          (es.filter (fun x => x.pid = e.pid))).2 := by
      rw [filter_pid_cons_eq, hstep]
      rfl
    constructor
    · rw [hmr, ih1, ht1,
        sum_map_update_one pids hnd e.pid he _ _
          ((tallyDelta (s.process_info e.pid) e).1) hne1 heq1]
      omega
    · rw [hmr, ih2, ht2,
        sum_map_update_one pids hnd e.pid he _ _
          ((tallyDelta (s.process_info e.pid) e).2) hne2 heq2]
      omega

/-! ## Batches: the event streams produced by `generate_single_file` tasks -/

/-- One work item as executed by a worker: its worker pid, filename, target
size, the `bytes_written` payloads of the progress events it emitted, and
whether it failed (emitting `error` and raising) instead of completing. -/
structure TaskSpec where
  pid : Nat
  filename : String
  size : Nat
  progressBytes : List Nat
  fails : Bool
deriving DecidableEq

def startedEventOf (t : TaskSpec) : Event :=
  ⟨t.pid, t.filename, .started, some t.size, 0⟩

def progressEventOf (t : TaskSpec) (b : Nat) : Event :=
  ⟨t.pid, t.filename, .progress, some t.size, b⟩

def termEventOf (t : TaskSpec) : Event :=
  ⟨t.pid, t.filename, if t.fails then .error else .completed, none, 0⟩

/-- The event stream one task sends on the queue, in emission order:
`started`, its progress events, then exactly one terminal event. -/
def taskStream (t : TaskSpec) : List Event :=
  startedEventOf t :: (t.progressBytes.map (progressEventOf t) ++ [termEventOf t])

/-- The (files, bytes) the monitor tallies for one task. -/
def taskDelta (t : TaskSpec) : Nat × Nat :=
  if t.fails then (0, 0) else (1, t.size)

theorem getLast_getD_cons (bs : List Nat) :
    ∀ b bw, ((b :: bs).getLast?).getD bw = (bs.getLast?).getD b := by
  induction bs with
  | nil => intro b bw; rfl
  | cons c cs ih =>
    intro b bw
    rw [List.getLast?_cons_cons, ih c bw, ih c b]

theorem pidTally_mid (t : TaskSpec) :
    ∀ (bs : List Nat) (bw : Nat) (rest : List Event),
      pidTally (some ⟨t.filename, t.size, bw⟩)
          (bs.map (progressEventOf t) ++ termEventOf t :: rest) =
        ((taskDelta t).1 +
            (pidTally (some ⟨t.filename, t.size, (bs.getLast?).getD bw⟩) rest).1,
         (taskDelta t).2 +
            (pidTally (some ⟨t.filename, t.size, (bs.getLast?).getD bw⟩) rest).2) := by
  intro bs
  induction bs with
  | nil =>
    intro bw rest
    by_cases hf : t.fails <;>
      simp [pidTally, tallyDelta, entryStep, termEventOf, taskDelta, hf]
  | cons b bs ih =>
    intro bw rest
    have hstep : pidTally (some ⟨t.filename, t.size, bw⟩)
        (((b :: bs).map (progressEventOf t)) ++ termEventOf t :: rest) =
        pidTally (some ⟨t.filename, t.size, b⟩)
          ((bs.map (progressEventOf t)) ++ termEventOf t :: rest) := by
      simp [pidTally, tallyDelta, entryStep, progressEntry, progressEventOf]
    rw [hstep, ih b rest, getLast_getD_cons]

theorem pidTally_taskStream (t : TaskSpec) (rest : List Event)
    (entry : Option PInfo) :
    pidTally entry (taskStream t ++ rest) =
      ((taskDelta t).1 + (pidTally
          (some ⟨t.filename, t.size, (t.progressBytes.getLast?).getD 0⟩) rest).1,
       (taskDelta t).2 + (pidTally
          (some ⟨t.filename, t.size, (t.progressBytes.getLast?).getD 0⟩) rest).2) := by
  have hassoc : taskStream t ++ rest =
      startedEventOf t ::
        (t.progressBytes.map (progressEventOf t) ++ termEventOf t :: rest) := by
    simp [taskStream]
  rw [hassoc]
  have hfirst : pidTally entry
      (startedEventOf t ::
        (t.progressBytes.map (progressEventOf t) ++ termEventOf t :: rest)) =
      pidTally (some ⟨t.filename, t.size, 0⟩)
        (t.progressBytes.map (progressEventOf t) ++ termEventOf t :: rest) := by
    simp [pidTally, tallyDelta, entryStep, startedEntry, startedEventOf]
  rw [hfirst, pidTally_mid]

theorem pidTally_flatten (l : List TaskSpec) :
    ∀ entry, pidTally entry ((l.map taskStream).flatten) =
      ((l.map (fun t => (taskDelta t).1)).sum,
       (l.map (fun t => (taskDelta t).2)).sum) := by
  induction l with
  | nil => intro entry; simp [pidTally]
  | cons t l ih =>
    intro entry
    rw [List.map_cons, List.flatten_cons, pidTally_taskStream, ih, List.map_cons,
      List.map_cons, List.sum_cons, List.sum_cons]

theorem sum_buckets (pids : List Nat) (hnd : pids.Nodup) (w : TaskSpec → Nat) :
    ∀ tasks : List TaskSpec, (∀ t ∈ tasks, t.pid ∈ pids) →
      (pids.map (fun p =>
        ((tasks.filter (fun x => x.pid = p)).map w).sum)).sum =
      (tasks.map w).sum := by
  intro tasks
  induction tasks with
  | nil => intro _; simp
  | cons t ts ih =>
    intro hcov
    have hq : t.pid ∈ pids := hcov t (List.mem_cons_self _ _)
    have hne : ∀ p ∈ pids, p ≠ t.pid →
        (((t :: ts).filter (fun x => x.pid = p)).map w).sum =
        ((ts.filter (fun x => x.pid = p)).map w).sum := by
      intro p _ hp
      rw [List.filter_cons]
      simp [Ne.symm hp]
    have heq : (((t :: ts).filter (fun x => x.pid = t.pid)).map w).sum =
        w t + ((ts.filter (fun x => x.pid = t.pid)).map w).sum := by
      rw [List.filter_cons]
      simp
    rw [sum_map_update_one pids hnd t.pid hq _ _ (w t) hne heq,
      ih (fun x hx => hcov x (List.mem_cons_of_mem _ hx)), List.map_cons,
      List.sum_cons]

theorem sum_filter_le (w : TaskSpec → Nat) (q : TaskSpec → Bool)
    (ts : List TaskSpec) :
    ((ts.filter q).map w).sum ≤ (ts.map w).sum := by
  induction ts with
  | nil => simp
  | cons t ts ih =>
    rw [List.filter_cons]
    by_cases hq : q t <;> simp [hq] <;> omega

theorem sum_taskDelta_fst (tasks : List TaskSpec) :
    (tasks.map (fun t => (taskDelta t).1)).sum =
      tasks.length - (tasks.filter (fun t => t.fails)).length := by
  induction tasks with
  | nil => simp
  | cons t ts ih =>
    have hle : (ts.filter (fun t => t.fails)).length ≤ ts.length :=
      List.length_filter_le _ _
    rw [List.map_cons, List.sum_cons, List.filter_cons, ih]
    by_cases hf : t.fails <;> simp [taskDelta, hf] <;> omega

theorem sum_taskDelta_snd (tasks : List TaskSpec) :
    (tasks.map (fun t => (taskDelta t).2)).sum =
      (tasks.map (fun t => t.size)).sum -
        ((tasks.filter (fun t => t.fails)).map (fun t => t.size)).sum := by
  induction tasks with
  | nil => simp
  | cons t ts ih =>
    have hle := sum_filter_le (fun t => t.size) (fun t => t.fails) ts
    rw [List.map_cons, List.sum_cons, List.filter_cons, ih]
    by_cases hf : t.fails <;> simp [taskDelta, hf] <;> omega

/-- Final monitor tally over any interleaving of a batch's task streams:
per-pid subsequences determine the run, and each task contributes its
`taskDelta`. -/
theorem monRun_batch_tally (tasks : List TaskSpec) (pids : List Nat)
    (es : List Event) (hnd : pids.Nodup)
    (hcov : ∀ e ∈ es, e.pid ∈ pids)
    (htp : ∀ t ∈ tasks, t.pid ∈ pids)
    (hstreams : ∀ p ∈ pids, es.filter (fun e => e.pid = p) =
      ((tasks.filter (fun t => t.pid = p)).map taskStream).flatten) :
    (monRun monInit es).completed_files =
      tasks.length - (tasks.filter (fun t => t.fails)).length ∧
    (monRun monInit es).completed_size =
      (tasks.map (fun t => t.size)).sum -
        ((tasks.filter (fun t => t.fails)).map (fun t => t.size)).sum := by
  obtain ⟨h1, h2⟩ := monRun_decomp pids hnd es monInit hcov
  have hmap1 : pids.map (fun p =>
      (pidTally (monInit.process_info p) (es.filter (fun e => e.pid = p))).1) =
      pids.map (fun p =>
        ((tasks.filter (fun t => t.pid = p)).map (fun t => (taskDelta t).1)).sum) := by
    apply List.map_congr_left
    intro p hp
    rw [hstreams p hp, pidTally_flatten]
  have hmap2 : pids.map (fun p =>
      (pidTally (monInit.process_info p) (es.filter (fun e => e.pid = p))).2) =
      pids.map (fun p =>
        ((tasks.filter (fun t => t.pid = p)).map (fun t => (taskDelta t).2)).sum) := by
    apply List.map_congr_left
    intro p hp
    rw [hstreams p hp, pidTally_flatten]
  constructor
  · rw [h1, hmap1, sum_buckets pids hnd _ tasks htp, sum_taskDelta_fst]
    simp [monInit]
  · rw [h2, hmap2, sum_buckets pids hnd _ tasks htp, sum_taskDelta_snd]
    simp [monInit]

theorem monRun_append (s : MonState) (a b : List Event) :
    monRun s (a ++ b) = monRun (monRun s a) b := by
  simp [monRun]

theorem monRun_completed_le (s : MonState) (es : List Event) :
    s.completed_files ≤ (monRun s es).completed_files := by
  induction es generalizing s with
  | nil => exact le_refl _
  | cons e es ih =>
    have h1 : s.completed_files ≤ (monStep s e).completed_files := by
      obtain ⟨h, _⟩ := monStep_tally s e
      omega
    exact le_trans h1 (ih (monStep s e))

theorem monRun_take_le (es : List Event) (n : Nat) :
    (monRun monInit (es.take n)).completed_files ≤
      (monRun monInit es).completed_files :=
  calc (monRun monInit (es.take n)).completed_files
      ≤ (monRun (monRun monInit (es.take n)) (es.drop n)).completed_files :=
        monRun_completed_le _ _
    _ = (monRun monInit es).completed_files := by
        rw [← monRun_append, List.take_append_drop]

/-- Claim C4: after the aggregator processes all events of a batch of `N`
items totaling `B` bytes in which the `K` failing items' sizes sum to `F`,
its final tally satisfies `completed_items = N - K` and
`completed_bytes = B - F`; this holds for every interleaving of the
per-worker streams (fixed by their per-pid subsequences). -/
theorem claim_C4_global_tally (tasks : List TaskSpec) (pids : List Nat)
    (es : List Event) (hnd : pids.Nodup)
    (hcov : ∀ e ∈ es, e.pid ∈ pids)
    (htp : ∀ t ∈ tasks, t.pid ∈ pids)
    (hstreams : ∀ p ∈ pids, es.filter (fun e => e.pid = p) =
      ((tasks.filter (fun t => t.pid = p)).map taskStream).flatten) :
    (monRun monInit es).completed_files =
      tasks.length - (tasks.filter (fun t => t.fails)).length ∧
    (monRun monInit es).completed_size =
      (tasks.map (fun t => t.size)).sum -
        ((tasks.filter (fun t => t.fails)).map (fun t => t.size)).sum :=
  monRun_batch_tally tasks pids es hnd hcov htp hstreams

def sampleTasks : List TaskSpec :=
  [⟨0, "d0000.bin", 3, [1, 2], false⟩, ⟨1, "d0001.bin", 4, [], true⟩]

def sampleEvents : List Event :=
  [⟨0, "d0000.bin", .started, some 3, 0⟩,
   ⟨1, "d0001.bin", .started, some 4, 0⟩,
   ⟨0, "d0000.bin", .progress, some 3, 1⟩,
   ⟨0, "d0000.bin", .progress, some 3, 2⟩,
   ⟨1, "d0001.bin", .error, none, 0⟩,
   ⟨0, "d0000.bin", .completed, none, 0⟩]

theorem claim_C4_global_tally_witness :
    (monRun monInit sampleEvents).completed_files =
      sampleTasks.length - (sampleTasks.filter (fun t => t.fails)).length ∧
    (monRun monInit sampleEvents).completed_size =
      (sampleTasks.map (fun t => t.size)).sum -
        ((sampleTasks.filter (fun t => t.fails)).map (fun t => t.size)).sum :=
  claim_C4_global_tally sampleTasks [0, 1] sampleEvents
    (by decide) (by decide) (by decide) (by decide)

/-- Claim C3 (amended): the draining loop's condition is
`completed_files < total_files` and `error` events never advance
`completed_files`, so for the event sequence of a batch the loop terminates
if and only if no item fails; any failed item leaves the loop waiting
forever (the thread dies only because it is a daemon). -/
theorem claim_C3_drain_terminates_iff_no_failure (tasks : List TaskSpec)
    (pids : List Nat) (es : List Event) (hnd : pids.Nodup)
    (hcov : ∀ e ∈ es, e.pid ∈ pids)
    (htp : ∀ t ∈ tasks, t.pid ∈ pids)
    (hstreams : ∀ p ∈ pids, es.filter (fun e => e.pid = p) =
      ((tasks.filter (fun t => t.pid = p)).map taskStream).flatten) :
    monitorStops tasks.length es ↔
      (tasks.filter (fun t => t.fails)).length = 0 := by
  obtain ⟨h1, _⟩ := monRun_batch_tally tasks pids es hnd hcov htp hstreams
  constructor
  · rintro ⟨n, hn⟩
    have h2 := monRun_take_le es n
    have h3 : (tasks.filter (fun t => t.fails)).length ≤ tasks.length :=
      List.length_filter_le _ _
    omega
  · intro hK
    refine ⟨es.length, ?_⟩
    rw [List.take_length, h1]
    omega

def okTasks : List TaskSpec := [⟨0, "d0000.bin", 1, [], false⟩]

def okEvents : List Event :=
  [⟨0, "d0000.bin", .started, some 1, 0⟩,
   ⟨0, "d0000.bin", .completed, none, 0⟩]

theorem claim_C3_drain_terminates_iff_no_failure_witness :
    monitorStops okTasks.length okEvents ↔
      (okTasks.filter (fun t => t.fails)).length = 0 :=
  claim_C3_drain_terminates_iff_no_failure okTasks [0] okEvents
    (by decide) (by decide) (by decide) (by decide)

/-- Claim C3 counterexample: a batch with `total_items = 1` whose single item
reports a terminal event (`error`), so the claim asserts the draining loop
terminates; but `completed_files` never reaches 1 on any prefix, so the loop
never exits. -/
theorem claim_C3_counterexample :
    ¬ monitorStops 1
      [⟨0, "d0000.bin", EvStatus.started, some 1, 0⟩,
       ⟨0, "d0000.bin", EvStatus.error, none, 0⟩] := by
  rintro ⟨n, hn⟩
  have h0 : (monRun monInit
      (([⟨0, "d0000.bin", EvStatus.started, some 1, 0⟩,
         ⟨0, "d0000.bin", EvStatus.error, none, 0⟩] :
        List Event).take n)).completed_files = 0 := by
    match n with
    | 0 => rfl
    | 1 => rfl
    | (k + 2) =>
      rw [List.take_of_length_le
        (by simp only [List.length_cons, List.length_nil]; omega)]
      rfl
  omega
